import Mathlib

/-!
# sitemap-parser: a verification development

A shallow embedding of `parser.go` (package `sitemapparser`) and theorems about
`ExtractURLs`.

Modelling decisions.

* The remote world is a function `Net` from the list of URLs requested so far and
  the URL requested now to either a transport failure or a response body, so two
  requests for one URL may be answered differently.  Every function that performs
  a request takes the request log and returns the extended log.
* A response body is represented by what the `encoding/xml` tokenizer makes of its
  bytes (`Body`): the two calls of `xml.Unmarshal` in the source are then the
  struct-mapping rules of `encoding/xml` applied to the struct tags declared in
  `parser.go`.
* The goroutines of the index branch are an interleaving semantics: a state
  (`FanOut`), one atomic action per goroutine step (`step`), and a scheduler that
  at every point picks one of the enabled actions (`run`).
* `fmt.Println` diagnostics are not part of the returned values and are left out.
-/

namespace SitemapParser

/-! ## XML as presented by the decoder -/

/-- Node is one item of element content in the decoder's token stream: a child
element with its own content, a run of character data, or a token that
`Unmarshal` never stores here (comment, processing instruction, directive).
Character data is the text as the tokenizer delivers it (entity references
resolved, CDATA sections unwrapped); the package itself never touches it. -/
inductive Node where
  | element (name : String) (children : List Node)
  | charData (data : String)
  | misc

/-- Body is a response body as `encoding/xml` reads it.
* `noElement msg`: the tokenizer fails (or reaches end of input) before any start
  element;
* `truncated root msg`: a start element named `root` is read, and the tokenizer
  then fails before the matching end element (unbalanced tags, bad entity, end
  of input);
* `document root children`: a start element named `root`, well-formed content,
  and the matching end element.  Whatever follows the end element is never read
  by `Unmarshal`.
Names are local names: no struct tag in `parser.go` names a namespace, so the
decoder compares local names only. -/
inductive Body where
  | noElement (msg : String)
  | truncated (root : String) (msg : String)
  | document (root : String) (children : List Node)

/-- Error values returned by the package: a transport failure of `http.Get` or
`io.ReadAll`, an XML error of the tokenizer, or the decoder's
"expected element type <expected> but have <found>". -/
inductive Error where
  | transport (msg : String)
  | malformed (msg : String)
  | unexpectedElement (expected found : String)
  deriving DecidableEq, Repr

/-- An error is a parse error when it comes from `xml.Unmarshal`. -/
def Error.isParseError : Error → Bool
  | .transport _ => false
  | .malformed _ => true
  | .unexpectedElement _ _ => true

/-! ## Data model (`parser.go`, lines 13-35) -/

/-- Sitemap: one entry of a sitemap index; field `Loc` has tag `xml:"loc"`. -/
structure Sitemap where
  Loc : String
  deriving DecidableEq, Repr

/-- SitemapIndex: `XMLName` has tag `xml:"sitemapindex"`, `Sitemaps` has tag
`xml:"sitemap"`. -/
structure SitemapIndex where
  XMLName : String
  Sitemaps : List Sitemap
  deriving DecidableEq, Repr

/-- URL: one entry of a leaf sitemap; field `Loc` has tag `xml:"loc"`. -/
structure URL where
  Loc : String
  deriving DecidableEq, Repr

/-- URLSet: `XMLName` has tag `xml:"urlset"`, `URLs` has tag `xml:"url"`. -/
structure URLSet where
  XMLName : String
  URLs : List URL
  deriving DecidableEq, Repr

/-! ## `xml.Unmarshal` on these structs -/

/-- Character data stored into a string field: the concatenation of the
character-data tokens directly inside the element; nested elements are skipped. -/
def charDataOf : List Node → String
  | [] => ""
  | .charData d :: rest => d ++ charDataOf rest
  | _ :: rest => charDataOf rest

/-- Value of a field `Loc string` tagged `xml:"loc"` after decoding the content
of its parent element, starting from `acc` (the zero value `""`): every child
element named `loc` overwrites the field, anything else is skipped. -/
def decodeLoc (acc : String) : List Node → String
  | [] => acc
  | .element name kids :: rest =>
    if name = "loc" then decodeLoc (charDataOf kids) rest else decodeLoc acc rest
  | _ :: rest => decodeLoc acc rest

/-- Value of a slice field tagged `xml:"<tag>"` whose element type is a struct with
the single field `Loc`: every child element named `tag` appends one struct, in
document order; anything else is skipped. -/
def decodeEntries (tag : String) : List Node → List String
  | [] => []
  | .element name kids :: rest =>
    if name = tag then decodeLoc "" kids :: decodeEntries tag rest
    else decodeEntries tag rest
  | _ :: rest => decodeEntries tag rest

/-- The part of `xml.Unmarshal` shared by both structs: find the first start
element, compare its name with the `XMLName` tag, then decode its content.
The name comparison is the rule of `encoding/xml` for a struct with a tagged
`XMLName` field: "the XML element must have the given name ... or else Unmarshal
returns an error"; it is made when the start element is read, before the content.
An error of the tokenizer inside the root element makes the call fail as well. -/
def xmlUnmarshal (rootTag entryTag : String) : Body → Except Error (String × List String)
  | .noElement msg => .error (.malformed msg)
  | .truncated root msg =>
    if root = rootTag then .error (.malformed msg)
    else .error (.unexpectedElement rootTag root)
  | .document root children =>
    if root = rootTag then .ok (root, decodeEntries entryTag children)
    else .error (.unexpectedElement rootTag root)

/-- The call `xml.Unmarshal(body, &sitemapIndex)` with `sitemapIndex : SitemapIndex`. -/
def unmarshalSitemapIndex (body : Body) : Except Error SitemapIndex :=
  match xmlUnmarshal "sitemapindex" "sitemap" body with
  | .ok (name, locs) => .ok { XMLName := name, Sitemaps := locs.map Sitemap.mk }
  | .error err => .error err

/-- The call `xml.Unmarshal(body, &urlset)` with `urlset : URLSet`. -/
def unmarshalURLSet (body : Body) : Except Error URLSet :=
  match xmlUnmarshal "urlset" "url" body with
  | .ok (name, locs) => .ok { XMLName := name, URLs := locs.map URL.mk }
  | .error err => .error err

/-! ## Fetching and parsing (`parser.go`, lines 37-94) -/

/-- The remote world: the answer to a GET for a URL, given the URLs requested
before it (oldest first). -/
abbrev Net := List String → String → Except String Body

/-- Function `fetchSitemapContent`: one GET; returns the body or the transport
error, and the request log extended by this request. -/
def fetchSitemapContent (net : Net) (log : List String) (url : String) :
    Except Error Body × List String :=
  match net log url with
  | .error msg => (.error (.transport msg), log ++ [url])
  | .ok body => (.ok body, log ++ [url])

/-- Function `isSitemapIndexFile`: `err == nil` of unmarshalling into a
`SitemapIndex`. -/
def isSitemapIndexFile (body : Body) : Bool :=
  match unmarshalSitemapIndex body with
  | .ok _ => true
  | .error _ => false

/-- Function `parseSitemapIndex`: fetch, then unmarshal into a `SitemapIndex`. -/
def parseSitemapIndex (net : Net) (log : List String) (url : String) :
    Except Error SitemapIndex × List String :=
  match fetchSitemapContent net log url with
  | (.error err, log1) => (.error err, log1)
  | (.ok body, log1) =>
    match unmarshalSitemapIndex body with
    | .error err => (.error err, log1)
    | .ok sitemapIndex => (.ok sitemapIndex, log1)

/-- Function `parseURLSet`: fetch, then unmarshal into a `URLSet`. -/
def parseURLSet (net : Net) (log : List String) (url : String) :
    Except Error URLSet × List String :=
  match fetchSitemapContent net log url with
  | (.error err, log1) => (.error err, log1)
  | (.ok body, log1) =>
    match unmarshalURLSet body with
    | .error err => (.error err, log1)
    | .ok urlset => (.ok urlset, log1)

/-! ## The concurrent fan-out of the index branch (`parser.go`, lines 116-144) -/

/-- State of one goroutine started by `go func(sitemapURL string)`:
* `pending u`: started, `parseURLSet(u)` not yet called;
* `sending locs`: `parseURLSet` succeeded, `locs` are the locations still to be
  sent on `urlsChan`, in document order;
* `done`: returned (after an error or after the last send), `wg.Done()` called. -/
inductive Worker where
  | pending (sitemapURL : String)
  | sending (locs : List String)
  | done
  deriving DecidableEq, Repr

/-- State of the index branch between the spawning loop and the return:
the request log, the worker goroutines in the order of `sitemapIndex.Sitemaps`,
the contents of the buffered channel `urlsChan` (oldest first), whether it is
closed, and the slice `urls` collected by the caller. -/
structure FanOut where
  log : List String
  workers : List Worker
  chan : List String
  closed : Bool
  urls : List String
  deriving DecidableEq, Repr

/-- Capacity of `urlsChan`: `make(chan string, len(sitemapIndex.Sitemaps))`; one
worker is spawned per element of `Sitemaps`. -/
def FanOut.cap (st : FanOut) : Nat := st.workers.length

/-- One atomic step of one goroutine: worker `i` advances, the caller receives
one value in `for url := range urlsChan`, or the waiting goroutine closes the
channel after `wg.Wait()`. -/
inductive Action where
  | worker (i : Nat)
  | receive
  | close
  deriving DecidableEq, Repr

/-- Whether worker `i` can take a step: a send blocks while the buffer is full. -/
def workerReady (st : FanOut) (i : Nat) : Bool :=
  match st.workers[i]? with
  | some (.pending _) => true
  | some (.sending (_ :: _)) => decide (st.chan.length < st.cap)
  | some (.sending []) => true
  | _ => false

/-- Whether every worker has returned, that is, `wg.Wait()` returns. -/
def allDone (st : FanOut) : Bool :=
  st.workers.all fun w => decide (w = .done)

/-- The actions that are not blocked in a state. -/
def enabled (st : FanOut) : List Action :=
  ((List.range st.workers.length).filter (workerReady st)).map Action.worker
    ++ (if st.chan = [] then [] else [Action.receive])
    ++ (if st.closed = false ∧ allDone st = true then [Action.close] else [])

/-- Effect of one action.
A pending worker calls `parseURLSet`: on an error it returns, otherwise it
starts sending the locations.  A sending worker sends the next location, or
returns when none is left.  The caller appends a received value to `urls`. -/
def step (net : Net) (a : Action) (st : FanOut) : FanOut :=
  match a with
  | .worker i =>
    match st.workers[i]? with
    | some (.pending sitemapURL) =>
      match parseURLSet net st.log sitemapURL with
      | (.error _, log1) => { st with log := log1, workers := st.workers.set i .done }
      | (.ok urlset, log1) =>
        { st with log := log1, workers := st.workers.set i (.sending (urlset.URLs.map URL.Loc)) }
    | some (.sending (loc :: rest)) =>
      { st with chan := st.chan ++ [loc], workers := st.workers.set i (.sending rest) }
    | some (.sending []) => { st with workers := st.workers.set i .done }
    | _ => st
  | .receive =>
    match st.chan with
    | [] => st
    | url :: rest => { st with chan := rest, urls := st.urls ++ [url] }
  | .close => { st with closed := true }

/-- Number of workers that have not yet called `parseURLSet`. -/
def pendingCount (ws : List Worker) : Nat :=
  (ws.map fun w => match w with
    | .pending _ => 1
    | _ => 0).sum

/-- Steps still owed by a worker once it has parsed: a send and a receive per
location, and the return. -/
def Worker.weight : Worker → Nat
  | .pending _ => 0
  | .sending locs => 2 * locs.length + 1
  | .done => 0

/-- Steps still owed in a state, not counting the work of pending workers. -/
def FanOut.weight (st : FanOut) : Nat :=
  (st.workers.map Worker.weight).sum + st.chan.length + (if st.closed then 0 else 1)

/-- Termination measure of the fan-out: lexicographic in the number of pending
workers and the steps owed by the others. -/
def FanOut.meas (st : FanOut) : Nat × Nat := (pendingCount st.workers, st.weight)

/-- The scheduler's pick among the enabled actions `a :: as`. -/
def choose (k : Nat) (a : Action) (as : List Action) : Action :=
  (a :: as).get ⟨k % (as.length + 1), Nat.mod_lt _ (Nat.succ_pos _)⟩

/-! ## Termination of the fan-out -/

theorem sum_map_set {α : Type} (f : α → Nat) (l : List α) (i : Nat) (w w' : α)
    (h : l[i]? = some w) :
    ((l.set i w').map f).sum + f w = (l.map f).sum + f w' := by
  induction l generalizing i with
  | nil => simp at h
  | cons x xs ih =>
    cases i with
    | zero =>
      simp only [List.getElem?_cons_zero, Option.some.injEq] at h
      subst h
      simp only [List.set, List.map, List.sum_cons]
      omega
    | succ j =>
      simp only [List.getElem?_cons_succ] at h
      have := ih j h
      simp only [List.set, List.map, List.sum_cons]
      omega

theorem mem_enabled_worker (st : FanOut) (i : Nat) :
    Action.worker i ∈ enabled st ↔ workerReady st i = true := by
  unfold enabled
  simp only [List.mem_append, List.mem_map, List.mem_filter, List.mem_range]
  constructor
  · rintro ((⟨j, ⟨_, hj⟩, hji⟩ | h) | h)
    · cases hji
      exact hj
    · split at h <;> simp at h
    · split at h <;> simp at h
  · intro h
    refine Or.inl (Or.inl ⟨i, ⟨?_, h⟩, rfl⟩)
    unfold workerReady at h
    by_contra hlt
    rw [List.getElem?_eq_none (by omega)] at h
    simp at h

theorem mem_enabled_receive (st : FanOut) :
    Action.receive ∈ enabled st ↔ st.chan ≠ [] := by
  unfold enabled
  by_cases hc : st.chan = [] <;> by_cases hd : (st.closed = false ∧ allDone st = true) <;>
    simp [hc, hd]

theorem mem_enabled_close (st : FanOut) :
    Action.close ∈ enabled st ↔ (st.closed = false ∧ allDone st = true) := by
  unfold enabled
  by_cases hc : st.chan = [] <;> by_cases hd : (st.closed = false ∧ allDone st = true) <;>
    simp [hc, hd]

theorem step_meas_lt (net : Net) (a : Action) (st : FanOut) (h : a ∈ enabled st) :
    Prod.Lex (· < ·) (· < ·) (step net a st).meas st.meas := by
  cases a with
  | worker i =>
    rw [mem_enabled_worker] at h
    unfold workerReady at h
    unfold step
    simp only
    split at h
    · rename_i u hw
      have hp := fun w' => sum_map_set (fun w => match w with
        | Worker.pending _ => 1
        | _ => 0) st.workers i (Worker.pending u) w' hw
      split
      · apply Prod.Lex.left
        have := hp Worker.done
        simp only [pendingCount]
        simp only [] at this
        omega
      · apply Prod.Lex.left
        rename_i urlset _ _
        have := hp (Worker.sending (urlset.URLs.map URL.Loc))
        simp only [pendingCount]
        simp only [] at this
        omega
    · rename_i x rest hw
      have hp := sum_map_set (fun w => match w with
        | Worker.pending _ => 1
        | _ => 0) st.workers i _ (Worker.sending rest) hw
      have hq := sum_map_set Worker.weight st.workers i _ (Worker.sending rest) hw
      simp only [Worker.weight, List.length_cons] at hq
      simp only [] at hp
      rw [Prod.lex_def]
      refine Or.inr ⟨?_, ?_⟩
      · simp only [FanOut.meas, pendingCount]
        omega
      · simp only [FanOut.meas, FanOut.weight, List.length_append, List.length_singleton]
        omega
    · rename_i hw
      have hp := sum_map_set (fun w => match w with
        | Worker.pending _ => 1
        | _ => 0) st.workers i _ Worker.done hw
      have hq := sum_map_set Worker.weight st.workers i _ Worker.done hw
      simp only [Worker.weight, List.length_nil] at hq
      simp only [] at hp
      rw [Prod.lex_def]
      refine Or.inr ⟨?_, ?_⟩
      · simp only [FanOut.meas, pendingCount]
        omega
      · simp only [FanOut.meas, FanOut.weight]
        omega
    · simp at h
  | receive =>
    rw [mem_enabled_receive] at h
    unfold step
    simp only
    split
    · rename_i hc
      exact absurd hc h
    · rename_i x rest hc
      rw [Prod.lex_def]
      refine Or.inr ⟨rfl, ?_⟩
      simp only [FanOut.meas, FanOut.weight, hc, List.length_cons]
      omega
  | close =>
    rw [mem_enabled_close] at h
    unfold step
    rw [Prod.lex_def]
    refine Or.inr ⟨rfl, ?_⟩
    simp only [FanOut.meas, FanOut.weight, h.1]
    simp

theorem choose_mem (k : Nat) (a : Action) (as : List Action) : choose k a as ∈ a :: as :=
  List.get_mem _ _ _

/-- Every enabled action can be the scheduler's pick, so quantifying over all
schedulers covers every interleaving of the goroutines. -/
theorem choose_complete (a b : Action) (as : List Action) (hb : b ∈ a :: as) :
    ∃ k, choose k a as = b := by
  obtain ⟨n, hn⟩ := List.get_of_mem hb
  refine ⟨n.1, ?_⟩
  have hlt : n.1 < as.length + 1 := n.2
  unfold choose
  rw [← hn]
  congr 1
  apply Fin.ext
  exact Nat.mod_eq_of_lt hlt

set_option linter.unusedVariables false in
/-- The index branch run to completion under a scheduler: while some action is
enabled, the head of `sched` picks one of the enabled actions (the first one
once `sched` is used up) and the action is performed.  When a run stops,
the channel is closed and drained and the caller leaves its `range` loop. -/
def run (net : Net) (sched : List Nat) (st : FanOut) : FanOut :=
  match h : enabled st with
  | [] => st
  | a :: as => run net sched.tail (step net (choose (sched.headD 0) a as) st)
termination_by st.meas
decreasing_by
  exact step_meas_lt net _ st (h ▸ choose_mem _ a as)

/-- State after the spawning loop of the index branch: one pending worker per
element of `sitemapIndex.Sitemaps`, in order; an empty open channel; `urls` nil. -/
def spawn (sitemapIndex : SitemapIndex) (log : List String) : FanOut :=
  { log := log
    workers := sitemapIndex.Sitemaps.map fun sitemap => Worker.pending sitemap.Loc
    chan := []
    closed := false
    urls := [] }

/-- Function `ExtractURLs`.  Arguments: the remote world, the scheduler's picks
for the goroutines of the index branch, the log of requests made before the call,
and the URL.  Result: the pair `(urls, err)` returned by the Go function, and the
request log after the call. -/
def ExtractURLs (net : Net) (sched : List Nat) (log : List String) (url : String) :
    (List String × Option Error) × List String :=
  match fetchSitemapContent net log url with
  | (.error err, log1) => (([], some err), log1)
  | (.ok body, log1) =>
    if isSitemapIndexFile body then
      match parseSitemapIndex net log1 url with
      | (.error err, log2) => (([], some err), log2)
      | (.ok sitemapIndex, log2) =>
        let final := run net sched (spawn sitemapIndex log2)
        ((final.urls, none), final.log)
    else
      match parseURLSet net log1 url with
      | (.error err, log2) => (([], some err), log2)
      | (.ok urlset, log2) =>
        ((urlset.URLs.foldl (fun urls u => urls ++ [u.Loc]) [], none), log2)

/-! ## Specification vocabulary -/

/-- A leaf entry as the sitemap protocol writes it: the content of a `url` (or
`sitemap`) element holding exactly one `loc` element whose text is `loc`, among
any other children. -/
inductive HasLoc : List Node → String → Prop where
  | here (kids rest : List Node) :
    (∀ name ks, Node.element name ks ∈ rest → name ≠ "loc") →
    HasLoc (Node.element "loc" kids :: rest) (charDataOf kids)
  | skipElement (name : String) (ks rest : List Node) (loc : String) :
    name ≠ "loc" → HasLoc rest loc → HasLoc (Node.element name ks :: rest) loc
  | skipCharData (d : String) (rest : List Node) (loc : String) :
    HasLoc rest loc → HasLoc (Node.charData d :: rest) loc
  | skipMisc (rest : List Node) (loc : String) :
    HasLoc rest loc → HasLoc (Node.misc :: rest) loc

/-- The content of a root element lists the entries `locs`, in document order:
`Entries tag children locs` holds when the child elements named `tag` are, in
order, entries with the locations `locs`; other children are not entries. -/
inductive Entries (tag : String) : List Node → List String → Prop where
  | nil : Entries tag [] []
  | entry (kids rest : List Node) (loc : String) (locs : List String) :
    HasLoc kids loc → Entries tag rest locs →
    Entries tag (Node.element tag kids :: rest) (loc :: locs)
  | skipElement (name : String) (ks rest : List Node) (locs : List String) :
    name ≠ tag → Entries tag rest locs → Entries tag (Node.element name ks :: rest) locs
  | skipCharData (d : String) (rest : List Node) (locs : List String) :
    Entries tag rest locs → Entries tag (Node.charData d :: rest) locs
  | skipMisc (rest : List Node) (locs : List String) :
    Entries tag rest locs → Entries tag (Node.misc :: rest) locs

/-- A well-formed leaf document (root element `urlset`) whose `url` entries have
the locations `locs`, in document order. -/
def IsLeaf (body : Body) (locs : List String) : Prop :=
  ∃ children, body = .document "urlset" children ∧ Entries "url" children locs

/-- A well-formed index document (root element `sitemapindex`) whose `sitemap`
entries reference the children `children`, in document order. -/
def IsIndex (body : Body) (children : List String) : Prop :=
  ∃ cs, body = .document "sitemapindex" cs ∧ Entries "sitemap" cs children

/-- The canonical leaf document with the given locations:
`<urlset><url><loc>l</loc></url>...</urlset>`. -/
def leafDoc (locs : List String) : Body :=
  .document "urlset"
    (locs.map fun l => Node.element "url" [Node.element "loc" [Node.charData l]])

/-- The canonical index document with the given children:
`<sitemapindex><sitemap><loc>c</loc></sitemap>...</sitemapindex>`. -/
def indexDoc (children : List String) : Body :=
  .document "sitemapindex"
    (children.map fun c => Node.element "sitemap" [Node.element "loc" [Node.charData c]])

/-- The list `out` is an interleaving of the lists `ls`: it is built by taking,
one at a time, the head of one of the lists, until all are empty. -/
inductive Interleaving {α : Type} : List (List α) → List α → Prop where
  | nil (ls : List (List α)) : (∀ l ∈ ls, l = []) → Interleaving ls []
  | cons (ls : List (List α)) (i : Nat) (x : α) (rest out : List α) :
    ls[i]? = some (x :: rest) → Interleaving (ls.set i rest) out →
    Interleaving ls (x :: out)

/-- What a child goroutine sends on the channel, given the answer to its
request: the decoded locations of a body that unmarshals into a `URLSet`, in
the order of `URLs`; nothing after a transport failure or a decode error. -/
def childLocs (resp : Except String Body) : List String :=
  match resp with
  | .error _ => []
  | .ok body =>
    match unmarshalURLSet body with
    | .error _ => []
    | .ok urlset => urlset.URLs.map URL.Loc

/-- What a worker will still send, when the answer to a request for `u` is
`resp u`. -/
def Worker.future (resp : String → Except String Body) : Worker → List String
  | .pending u => childLocs (resp u)
  | .sending locs => locs
  | .done => []

/-- The URLs that the pending workers will request. -/
def pendingURLs (ws : List Worker) : List String :=
  ws.filterMap fun w => match w with
    | .pending u => some u
    | _ => none

/-- During the fan-out that started with request log `base`, every request of a
pending worker for its URL `u` is answered by `resp u`. -/
def Stable (net : Net) (base : List String) (resp : String → Except String Body)
    (st : FanOut) : Prop :=
  (∃ h, st.log = base ++ h) ∧
    ∀ u, Worker.pending u ∈ st.workers → ∀ h, net (base ++ h) u = resp u

/-- The answer to a child's request makes `parseURLSet` fail: a transport failure,
or a body that does not unmarshal into a `URLSet`. -/
def ChildFails (r : Except String Body) : Prop :=
  (∃ msg, r = .error msg) ∨ ∃ body err, r = .ok body ∧ unmarshalURLSet body = .error err

/-- Example world: every request is answered by a leaf document with two entries,
the first of them surrounded by blanks. -/
def leafWorld : Net := fun _ _ => .ok (leafDoc [" https://a/1 ", "https://a/2"])

/-- Example world: the URL `root` is an index listing `a`, `b` and `a` again; `a`
is a leaf with two entries, `b` a leaf with one; anything else is refused. -/
def indexWorld : Net := fun _ u =>
  if u = "root" then .ok (indexDoc ["a", "b", "a"])
  else if u = "a" then .ok (leafDoc ["a1", "a2"])
  else if u = "b" then .ok (leafDoc ["b1"])
  else .error "connection refused"

/-- Example world: the URL `root` is an index listing `a`, `x` and `b`; `a` and `b`
are leaves, and every request for `x` is refused. -/
def brokenChildWorld : Net := fun _ u =>
  if u = "root" then .ok (indexDoc ["a", "x", "b"])
  else if u = "a" then .ok (leafDoc ["a1", "a2"])
  else if u = "b" then .ok (leafDoc ["b1"])
  else .error "connection refused"

/-- Example world: the URL `root` is an index listing `a` and `nested`; `nested`
is itself an index listing `deep`, and `deep` is a leaf. -/
def nestedWorld : Net := fun _ u =>
  if u = "root" then .ok (indexDoc ["a", "nested"])
  else if u = "a" then .ok (leafDoc ["a1"])
  else if u = "nested" then .ok (indexDoc ["deep"])
  else .ok (leafDoc ["deep1"])

/-- Example world: every request is answered by a well-formed document whose
root element is `rss`. -/
def rssWorld : Net := fun _ _ => .ok (.document "rss" [Node.element "channel" []])

/-- Example world: every request is answered by a body cut off inside the
`urlset` element. -/
def truncatedWorld : Net := fun _ _ => .ok (.truncated "urlset" "unexpected EOF")

/-- Example world: the first request for `root` is answered by an index listing
`a`, every later request for `root` by an index listing `b`; `a` is a leaf with
the entry `a1`, anything else a leaf with the entry `b1`. -/
def switchWorld : Net := fun h u =>
  if u = "root" then (if h = [] then .ok (indexDoc ["a"]) else .ok (indexDoc ["b"]))
  else if u = "a" then .ok (leafDoc ["a1"])
  else .ok (leafDoc ["b1"])

/-- Example world: the first request is answered by a leaf document, every later
one is refused. -/
def flakyWorld : Net := fun h _ =>
  if h = [] then .ok (leafDoc ["https://a/1"]) else .error "connection reset"

/-! ## The decoder on well-formed documents -/

theorem decodeLoc_no_loc (acc : String) (rest : List Node)
    (h : ∀ name ks, Node.element name ks ∈ rest → name ≠ "loc") :
    decodeLoc acc rest = acc := by
  induction rest with
  | nil => rfl
  | cons n rest ih =>
    have ih' := ih fun name ks hm => h name ks (List.mem_cons_of_mem _ hm)
    cases n with
    | element name ks =>
      have hne : name ≠ "loc" := h name ks (List.mem_cons_self _ _)
      simp only [decodeLoc, hne, if_false]
      exact ih'
    | charData d => simpa only [decodeLoc] using ih'
    | misc => simpa only [decodeLoc] using ih'

theorem decodeLoc_of_hasLoc (kids : List Node) (loc : String) (h : HasLoc kids loc)
    (acc : String) : decodeLoc acc kids = loc := by
  induction h with
  | here kids rest hno =>
    simp only [decodeLoc, if_true]
    exact decodeLoc_no_loc _ _ hno
  | skipElement name ks rest loc hne _ ih =>
    simp only [decodeLoc, hne, if_false]
    exact ih
  | skipCharData d rest loc _ ih => simpa only [decodeLoc] using ih
  | skipMisc rest loc _ ih => simpa only [decodeLoc] using ih

theorem decodeEntries_of_entries (tag : String) (children : List Node) (locs : List String)
    (h : Entries tag children locs) : decodeEntries tag children = locs := by
  induction h with
  | nil => rfl
  | entry kids rest loc locs hl _ ih =>
    simp only [decodeEntries, if_true, ih, decodeLoc_of_hasLoc kids loc hl]
  | skipElement name ks rest locs hne _ ih =>
    simp only [decodeEntries, hne, if_false]
    exact ih
  | skipCharData d rest locs _ ih => simpa only [decodeEntries] using ih
  | skipMisc rest locs _ ih => simpa only [decodeEntries] using ih

theorem unmarshalURLSet_of_isLeaf (body : Body) (locs : List String) (h : IsLeaf body locs) :
    unmarshalURLSet body = .ok { XMLName := "urlset", URLs := locs.map URL.mk } := by
  obtain ⟨children, rfl, he⟩ := h
  simp [unmarshalURLSet, xmlUnmarshal, decodeEntries_of_entries _ _ _ he]

theorem unmarshalSitemapIndex_of_isIndex (body : Body) (cs : List String)
    (h : IsIndex body cs) :
    unmarshalSitemapIndex body
      = .ok { XMLName := "sitemapindex", Sitemaps := cs.map Sitemap.mk } := by
  obtain ⟨children, rfl, he⟩ := h
  simp [unmarshalSitemapIndex, xmlUnmarshal, decodeEntries_of_entries _ _ _ he]

theorem unmarshalSitemapIndex_of_isLeaf (body : Body) (locs : List String)
    (h : IsLeaf body locs) :
    unmarshalSitemapIndex body = .error (.unexpectedElement "sitemapindex" "urlset") := by
  obtain ⟨children, rfl, _⟩ := h
  simp [unmarshalSitemapIndex, xmlUnmarshal]

theorem isSitemapIndexFile_eq_true_iff (body : Body) :
    isSitemapIndexFile body = true ↔ ∃ children, body = .document "sitemapindex" children := by
  cases body with
  | noElement msg => simp [isSitemapIndexFile, unmarshalSitemapIndex, xmlUnmarshal]
  | truncated root msg =>
    by_cases hr : root = "sitemapindex" <;>
      simp [isSitemapIndexFile, unmarshalSitemapIndex, xmlUnmarshal, hr]
  | document root children =>
    by_cases hr : root = "sitemapindex" <;>
      simp [isSitemapIndexFile, unmarshalSitemapIndex, xmlUnmarshal, hr]

theorem foldl_append_loc (us : List URL) (acc : List String) :
    us.foldl (fun urls u => urls ++ [u.Loc]) acc = acc ++ us.map URL.Loc := by
  induction us generalizing acc with
  | nil => simp
  | cons u us ih => simp [List.foldl, ih]

theorem map_loc_map_mk (locs : List String) : (locs.map URL.mk).map URL.Loc = locs := by
  induction locs with
  | nil => rfl
  | cons l ls ih => simp only [List.map_cons, ih]

theorem entries_canonical (tag : String) (locs : List String) :
    Entries tag (locs.map fun l => Node.element tag [Node.element "loc" [Node.charData l]])
      locs := by
  induction locs with
  | nil => exact Entries.nil
  | cons l ls ih =>
    refine Entries.entry _ _ l ls ?_ ih
    have h := HasLoc.here [Node.charData l] [] (by simp)
    simpa [charDataOf] using h

theorem isLeaf_leafDoc (locs : List String) : IsLeaf (leafDoc locs) locs :=
  ⟨_, rfl, entries_canonical "url" locs⟩

theorem isIndex_indexDoc (cs : List String) : IsIndex (indexDoc cs) cs :=
  ⟨_, rfl, entries_canonical "sitemap" cs⟩

/-! ## Interleavings -/

theorem list_set_self {α : Type} (l : List α) (i : Nat) (a : α) (h : l[i]? = some a) :
    l.set i a = l := by
  induction l generalizing i with
  | nil => rfl
  | cons x xs ih =>
    cases i with
    | zero =>
      simp only [List.getElem?_cons_zero, Option.some.injEq] at h
      simp [List.set, h]
    | succ j =>
      simp only [List.getElem?_cons_succ] at h
      simp [List.set, ih j h]

theorem flatten_perm_of_getElem? {α : Type} (ls : List (List α)) (i : Nat) (x : α)
    (rest : List α) (h : ls[i]? = some (x :: rest)) :
    ls.flatten.Perm (x :: (ls.set i rest).flatten) := by
  induction ls generalizing i with
  | nil => simp at h
  | cons l ls ih =>
    cases i with
    | zero =>
      simp only [List.getElem?_cons_zero, Option.some.injEq] at h
      subst h
      simp [List.set]
    | succ j =>
      simp only [List.getElem?_cons_succ] at h
      have hp := ih j h
      simp only [List.set, List.flatten_cons]
      exact (List.Perm.append_left l hp).trans List.perm_middle

theorem flatten_eq_nil_of_all_nil {α : Type} (ls : List (List α)) (h : ∀ l ∈ ls, l = []) :
    ls.flatten = [] := by
  induction ls with
  | nil => rfl
  | cons l ls ih =>
    have hl : l = [] := h l (List.mem_cons_self _ _)
    have := ih fun m hm => h m (List.mem_cons_of_mem _ hm)
    simp [hl, this]

theorem Interleaving.perm {α : Type} {ls : List (List α)} {out : List α}
    (h : Interleaving ls out) : out.Perm ls.flatten := by
  induction h with
  | nil ls hnil => rw [flatten_eq_nil_of_all_nil ls hnil]
  | cons ls i x rest out hi _ ih =>
    exact (List.Perm.cons x ih).trans (flatten_perm_of_getElem? ls i x rest hi).symm

theorem Interleaving.sublist {α : Type} {ls : List (List α)} {out : List α}
    (h : Interleaving ls out) : ∀ (j : Nat) (l : List α), ls[j]? = some l → l.Sublist out := by
  induction h with
  | nil ls hnil =>
    intro j l hj
    have : l = [] := hnil l (List.getElem?_mem hj)
    subst this
    exact List.Sublist.slnil
  | cons ls i x rest out hi _ ih =>
    intro j l hj
    by_cases hij : i = j
    · subst hij
      rw [hi] at hj
      cases hj
      have hlen : i < ls.length := by
        by_contra hn
        rw [List.getElem?_eq_none (by omega)] at hi
        cases hi
      have : (ls.set i rest)[i]? = some rest := by
        rw [List.getElem?_set_self hlen]
      exact (ih i rest this).cons₂ x
    · have : (ls.set i rest)[j]? = some l := by
        rw [List.getElem?_set_ne hij]
        exact hj
      exact (ih j l this).cons x

/-! ## Invariants of the fan-out -/

theorem run_of_enabled_nil (net : Net) (sched : List Nat) (st : FanOut)
    (h : enabled st = []) : run net sched st = st := by
  rw [run]
  split
  · rfl
  · rename_i a as h'
    rw [h] at h'
    cases h'

theorem run_of_enabled_cons (net : Net) (sched : List Nat) (st : FanOut) (a : Action)
    (as : List Action) (h : enabled st = a :: as) :
    run net sched st = run net sched.tail (step net (choose (sched.headD 0) a as) st) := by
  rw [run]
  split
  · rename_i h'
    rw [h] at h'
    cases h'
  · rename_i a' as' h'
    rw [h] at h'
    cases h'
    rfl

theorem terminal_of_enabled_nil (st : FanOut) (h : enabled st = []) :
    st.chan = [] ∧ st.closed = true ∧ ∀ w ∈ st.workers, w = Worker.done := by
  have hchan : st.chan = [] := by
    by_contra hc
    have := (mem_enabled_receive st).2 hc
    rw [h] at this
    cases this
  have hws : ∀ w ∈ st.workers, w = Worker.done := by
    intro w hw
    obtain ⟨i, hi⟩ := List.mem_iff_getElem?.1 hw
    have hnr : workerReady st i ≠ true := by
      intro hr
      have := (mem_enabled_worker st i).2 hr
      rw [h] at this
      cases this
    have hlen : i < st.workers.length := by
      by_contra hn
      rw [List.getElem?_eq_none (by omega)] at hi
      cases hi
    unfold workerReady at hnr
    rw [hi] at hnr
    cases w with
    | pending u => simp at hnr
    | sending locs =>
      cases locs with
      | nil => simp at hnr
      | cons x rest =>
        have hfull : ¬ st.chan.length < st.cap := by
          intro hlt
          exact hnr (by simpa using hlt)
        rw [hchan] at hfull
        simp only [List.length_nil, FanOut.cap] at hfull
        omega
    | done => rfl
  refine ⟨hchan, ?_, hws⟩
  by_contra hcl
  have hall : allDone st = true := by
    unfold allDone
    rw [List.all_eq_true]
    intro w hw
    simp [hws w hw]
  have := (mem_enabled_close st).2 ⟨by simpa using hcl, hall⟩
  rw [h] at this
  cases this

theorem pendingURLs_set_pending (ws : List Worker) (i : Nat) (u : String) (w : Worker)
    (h : ws[i]? = some (Worker.pending u)) (hw : ∀ v, w ≠ Worker.pending v) :
    (pendingURLs ws).Perm (u :: pendingURLs (ws.set i w)) := by
  induction ws generalizing i with
  | nil => simp at h
  | cons x xs ih =>
    cases i with
    | zero =>
      simp only [List.getElem?_cons_zero, Option.some.injEq] at h
      subst h
      cases w with
      | pending v => exact absurd rfl (hw v)
      | sending locs => simp [pendingURLs, List.set]
      | done => simp [pendingURLs, List.set]
    | succ j =>
      simp only [List.getElem?_cons_succ] at h
      have hp := ih j h
      cases x with
      | pending v =>
        simp only [pendingURLs, List.set, List.filterMap_cons] at hp ⊢
        exact (List.Perm.cons v hp).trans (List.Perm.swap u v _)
      | sending locs => simpa [pendingURLs, List.set] using hp
      | done => simpa [pendingURLs, List.set] using hp

theorem pendingURLs_set_other (ws : List Worker) (i : Nat) (w w' : Worker)
    (h : ws[i]? = some w) (hw : ∀ v, w ≠ Worker.pending v) (hw' : ∀ v, w' ≠ Worker.pending v) :
    pendingURLs (ws.set i w') = pendingURLs ws := by
  induction ws generalizing i with
  | nil => simp at h
  | cons x xs ih =>
    cases i with
    | zero =>
      simp only [List.getElem?_cons_zero, Option.some.injEq] at h
      subst h
      cases x with
      | pending v => exact absurd rfl (hw v)
      | sending locs =>
        cases w' with
        | pending v => exact absurd rfl (hw' v)
        | sending l' => simp [pendingURLs, List.set]
        | done => simp [pendingURLs, List.set]
      | done =>
        cases w' with
        | pending v => exact absurd rfl (hw' v)
        | sending l' => simp [pendingURLs, List.set]
        | done => simp [pendingURLs, List.set]
    | succ j =>
      simp only [List.getElem?_cons_succ] at h
      have hp := ih j h
      simp only [pendingURLs] at hp
      simp only [pendingURLs, List.set, List.filterMap_cons, hp]

theorem pendingURLs_of_all_done (ws : List Worker) (h : ∀ w ∈ ws, w = Worker.done) :
    pendingURLs ws = [] := by
  induction ws with
  | nil => rfl
  | cons x xs ih =>
    have hx : x = Worker.done := h x (List.mem_cons_self _ _)
    have := ih fun w hw => h w (List.mem_cons_of_mem _ hw)
    simp only [pendingURLs] at this
    simp [pendingURLs, hx, this]

theorem step_pending (net : Net) (st : FanOut) (i : Nat) (u : String)
    (hw : st.workers[i]? = some (Worker.pending u)) :
    ∃ w, step net (Action.worker i) st
        = { st with log := st.log ++ [u], workers := st.workers.set i w } ∧
      (∀ v, w ≠ Worker.pending v) ∧
      ∀ resp : String → Except String Body, net st.log u = resp u →
        w.future resp = childLocs (resp u) := by
  unfold step
  simp only [hw, parseURLSet, fetchSitemapContent]
  cases hn : net st.log u with
  | error msg =>
    refine ⟨Worker.done, rfl, fun v => by simp, ?_⟩
    intro resp hr
    rw [← hr]
    simp [Worker.future, childLocs]
  | ok body =>
    cases hb : unmarshalURLSet body with
    | error err =>
      refine ⟨Worker.done, ?_, fun v => by simp, ?_⟩
      · simp only [hb]
      · intro resp hr
        rw [← hr]
        simp [Worker.future, childLocs, hb]
    | ok urlset =>
      refine ⟨Worker.sending (urlset.URLs.map URL.Loc), ?_, fun v => by simp, ?_⟩
      · simp only [hb]
      · intro resp hr
        rw [← hr]
        simp [Worker.future, childLocs, hb]

theorem stable_set (net : Net) (base : List String) (resp : String → Except String Body)
    (st : FanOut) (i : Nat) (w : Worker) (log1 chan1 urls1 : List String) (closed1 : Bool)
    (hs : Stable net base resp st) (hlog : ∃ h, log1 = base ++ h)
    (hw : ∀ v, w ≠ Worker.pending v) :
    Stable net base resp
      { log := log1, workers := st.workers.set i w, chan := chan1, closed := closed1,
        urls := urls1 } := by
  refine ⟨hlog, ?_⟩
  intro u hu h
  rcases List.mem_or_eq_of_mem_set hu with hm | he
  · exact hs.2 u hm h
  · exact absurd he.symm (hw u)

theorem step_sim (net : Net) (base : List String) (resp : String → Except String Body)
    (a : Action) (st : FanOut) (ha : a ∈ enabled st) (hs : Stable net base resp st) :
    Stable net base resp (step net a st) ∧
    ((step net a st).log ++ pendingURLs (step net a st).workers).Perm
      (st.log ++ pendingURLs st.workers) ∧
    ∀ t', Interleaving ((step net a st).workers.map (Worker.future resp)) t' →
      ∃ t, (step net a st).urls ++ (step net a st).chan ++ t' = st.urls ++ st.chan ++ t ∧
        Interleaving (st.workers.map (Worker.future resp)) t := by
  cases a with
  | worker i =>
    rw [mem_enabled_worker] at ha
    unfold workerReady at ha
    split at ha
    · rename_i u hw
      obtain ⟨w, hstep, hnp, hfut⟩ := step_pending net st i u hw
      obtain ⟨h0, hlog⟩ := hs.1
      have hresp : net st.log u = resp u := by
        rw [hlog]
        exact hs.2 u (List.getElem?_mem hw) h0
      rw [hstep]
      refine ⟨stable_set net base resp st i w _ _ _ _ hs ⟨h0 ++ [u], ?_⟩ hnp, ?_, ?_⟩
      · rw [hlog, List.append_assoc]
      · simp only
        have hp := pendingURLs_set_pending st.workers i u w hw hnp
        rw [List.append_assoc]
        exact List.Perm.append_left st.log hp.symm
      · intro t' ht'
        refine ⟨t', rfl, ?_⟩
        simp only [List.map_set, hfut resp hresp] at ht'
        rw [list_set_self] at ht'
        · exact ht'
        · rw [List.getElem?_map, hw]
          rfl
    · rename_i x rest hw
      have hstep : step net (Action.worker i) st
          = { log := st.log, workers := st.workers.set i (Worker.sending rest),
              chan := st.chan ++ [x], closed := st.closed, urls := st.urls } := by
        unfold step
        simp only [hw]
      rw [hstep]
      refine ⟨stable_set net base resp st i _ _ _ _ _ hs hs.1 (fun v => by simp), ?_, ?_⟩
      · simp only
        rw [pendingURLs_set_other st.workers i _ _ hw (fun v => by simp) (fun v => by simp)]
      · intro t' ht'
        refine ⟨x :: t', by simp, ?_⟩
        simp only [List.map_set, Worker.future] at ht'
        refine Interleaving.cons _ i x rest t' ?_ ht'
        rw [List.getElem?_map, hw]
        rfl
    · rename_i hw
      have hstep : step net (Action.worker i) st
          = { log := st.log, workers := st.workers.set i Worker.done,
              chan := st.chan, closed := st.closed, urls := st.urls } := by
        unfold step
        simp only [hw]
      rw [hstep]
      refine ⟨stable_set net base resp st i _ _ _ _ _ hs hs.1 (fun v => by simp), ?_, ?_⟩
      · simp only
        rw [pendingURLs_set_other st.workers i _ _ hw (fun v => by simp) (fun v => by simp)]
      · intro t' ht'
        refine ⟨t', rfl, ?_⟩
        simp only [List.map_set, Worker.future] at ht'
        rw [list_set_self] at ht'
        · exact ht'
        · rw [List.getElem?_map, hw]
          rfl
    · simp at ha
  | receive =>
    rw [mem_enabled_receive] at ha
    cases hc : st.chan with
    | nil => exact absurd hc ha
    | cons x rest =>
      have hstep : step net Action.receive st
          = { log := st.log, workers := st.workers, chan := rest, closed := st.closed,
              urls := st.urls ++ [x] } := by
        unfold step
        simp only [hc]
      rw [hstep]
      refine ⟨⟨hs.1, hs.2⟩, List.Perm.refl _, ?_⟩
      intro t' ht'
      exact ⟨t', by simp, ht'⟩
  | close =>
    refine ⟨⟨hs.1, hs.2⟩, List.Perm.refl _, ?_⟩
    intro t' ht'
    exact ⟨t', rfl, ht'⟩

theorem run_spec (net : Net) (base : List String) (resp : String → Except String Body)
    (sched : List Nat) (st : FanOut) (hs : Stable net base resp st) :
    ∃ t, (run net sched st).urls = st.urls ++ st.chan ++ t ∧
      Interleaving (st.workers.map (Worker.future resp)) t ∧
      (run net sched st).log.Perm (st.log ++ pendingURLs st.workers) ∧
      (run net sched st).chan = [] ∧ (run net sched st).closed = true := by
  induction sched, st using run.induct net with
  | case1 sched st hen =>
    rw [run_of_enabled_nil net sched st hen]
    obtain ⟨hchan, hclosed, hws⟩ := terminal_of_enabled_nil st hen
    refine ⟨[], by simp [hchan], ?_, ?_, hchan, hclosed⟩
    · apply Interleaving.nil
      intro l hl
      obtain ⟨w, hw, rfl⟩ := List.mem_map.1 hl
      rw [hws w hw]
      rfl
    · rw [pendingURLs_of_all_done st.workers hws]
      simp
  | case2 sched st a as hen ih =>
    rw [run_of_enabled_cons net sched st a as hen]
    have hmem : choose (sched.headD 0) a as ∈ enabled st := by
      rw [hen]
      exact choose_mem _ a as
    obtain ⟨hs', hlog, hsim⟩ := step_sim net base resp _ st hmem hs
    obtain ⟨t', hurls, hint, hperm, hchan, hclosed⟩ := ih hs'
    obtain ⟨t, heq, hint'⟩ := hsim t' hint
    exact ⟨t, hurls.trans heq, hint', hperm.trans hlog, hchan, hclosed⟩

/-! ## `ExtractURLs`, branch by branch -/

theorem extractURLs_fetch_error (net : Net) (sched : List Nat) (log : List String)
    (url msg : String) (h : net log url = .error msg) :
    ExtractURLs net sched log url = (([], some (.transport msg)), log ++ [url]) := by
  simp [ExtractURLs, fetchSitemapContent, h]

theorem extractURLs_index (net : Net) (sched : List Nat) (log : List String) (url : String)
    (b1 b2 : Body) (sidx : SitemapIndex) (h1 : net log url = .ok b1)
    (hc : isSitemapIndexFile b1 = true) (h2 : net (log ++ [url]) url = .ok b2)
    (hd : unmarshalSitemapIndex b2 = .ok sidx) :
    ExtractURLs net sched log url
      = (((run net sched (spawn sidx (log ++ [url] ++ [url]))).urls, none),
          (run net sched (spawn sidx (log ++ [url] ++ [url]))).log) := by
  simp [ExtractURLs, fetchSitemapContent, parseSitemapIndex, h1, hc, h2, hd]

theorem extractURLs_index_error (net : Net) (sched : List Nat) (log : List String)
    (url : String) (b1 b2 : Body) (err : Error) (h1 : net log url = .ok b1)
    (hc : isSitemapIndexFile b1 = true) (h2 : net (log ++ [url]) url = .ok b2)
    (hd : unmarshalSitemapIndex b2 = .error err) :
    ExtractURLs net sched log url = (([], some err), log ++ [url] ++ [url]) := by
  simp [ExtractURLs, fetchSitemapContent, parseSitemapIndex, h1, hc, h2, hd]

theorem extractURLs_leaf (net : Net) (sched : List Nat) (log : List String) (url : String)
    (b1 b2 : Body) (urlset : URLSet) (h1 : net log url = .ok b1)
    (hc : isSitemapIndexFile b1 = false) (h2 : net (log ++ [url]) url = .ok b2)
    (hd : unmarshalURLSet b2 = .ok urlset) :
    ExtractURLs net sched log url
      = ((urlset.URLs.map URL.Loc, none), log ++ [url] ++ [url]) := by
  simp [ExtractURLs, fetchSitemapContent, parseURLSet, h1, hc, h2, hd, foldl_append_loc]

theorem extractURLs_leaf_error (net : Net) (sched : List Nat) (log : List String)
    (url : String) (b1 b2 : Body) (err : Error) (h1 : net log url = .ok b1)
    (hc : isSitemapIndexFile b1 = false) (h2 : net (log ++ [url]) url = .ok b2)
    (hd : unmarshalURLSet b2 = .error err) :
    ExtractURLs net sched log url = (([], some err), log ++ [url] ++ [url]) := by
  simp [ExtractURLs, fetchSitemapContent, parseURLSet, h1, hc, h2, hd]

theorem extractURLs_second_fetch_error (net : Net) (sched : List Nat) (log : List String)
    (url : String) (b1 : Body) (msg : String) (h1 : net log url = .ok b1)
    (h2 : net (log ++ [url]) url = .error msg) :
    ExtractURLs net sched log url = (([], some (.transport msg)), log ++ [url] ++ [url]) := by
  cases hc : isSitemapIndexFile b1 <;>
    simp [ExtractURLs, fetchSitemapContent, parseSitemapIndex, parseURLSet, h1, hc, h2]

theorem stable_spawn (net : Net) (base : List String) (resp : String → Except String Body)
    (sidx : SitemapIndex)
    (hresp : ∀ c ∈ sidx.Sitemaps.map Sitemap.Loc, ∀ h, net (base ++ h) c = resp c) :
    Stable net base resp (spawn sidx base) := by
  refine ⟨⟨[], by simp [spawn]⟩, ?_⟩
  intro u hu h
  apply hresp u _ h
  simp only [spawn, List.mem_map] at hu
  obtain ⟨sm, hsm, he⟩ := hu
  cases he
  exact List.mem_map.2 ⟨sm, hsm, rfl⟩

theorem spawn_futures (resp : String → Except String Body) (cs : List String)
    (name : String) (base : List String) :
    (spawn { XMLName := name, Sitemaps := cs.map Sitemap.mk } base).workers.map
        (Worker.future resp)
      = cs.map fun c => childLocs (resp c) := by
  simp [spawn, Worker.future, Function.comp_def]

theorem spawn_pendingURLs (cs : List String) (name : String) (base : List String) :
    pendingURLs (spawn { XMLName := name, Sitemaps := cs.map Sitemap.mk } base).workers
      = cs := by
  induction cs with
  | nil => rfl
  | cons c cs ih =>
    simp only [spawn, pendingURLs, List.map_cons, List.filterMap_cons] at ih ⊢
    rw [ih]

/-- The index branch with two different answers for the root: when the first
answer is classified as an index and the second answer is an index document
listing the children `cs`, and during the fan-out every request for a child `c` is
answered by `resp c`, then for every scheduler the call returns no error, the
returned list is an interleaving of what the children listed in the second answer
send, and the requests made are the root twice and every child listed there once. -/
theorem extractURLs_index_spec_of_second (net : Net) (sched : List Nat) (log : List String)
    (url : String) (b1 b2 : Body) (cs : List String) (resp : String → Except String Body)
    (h1 : net log url = .ok b1) (hc : isSitemapIndexFile b1 = true)
    (h2 : net (log ++ [url]) url = .ok b2) (hidx : IsIndex b2 cs)
    (hresp : ∀ c ∈ cs, ∀ h, net (log ++ [url] ++ [url] ++ h) c = resp c) :
    (ExtractURLs net sched log url).1.2 = none ∧
    Interleaving (cs.map fun c => childLocs (resp c)) (ExtractURLs net sched log url).1.1 ∧
    (ExtractURLs net sched log url).2.Perm (log ++ [url] ++ [url] ++ cs) := by
  have hd := unmarshalSitemapIndex_of_isIndex b2 cs hidx
  rw [extractURLs_index net sched log url b1 b2 _ h1 hc h2 hd]
  have hst : Stable net (log ++ [url] ++ [url]) resp
      (spawn { XMLName := "sitemapindex", Sitemaps := cs.map Sitemap.mk }
        (log ++ [url] ++ [url])) := by
    apply stable_spawn
    intro c hc' h
    apply hresp c _ h
    simpa [Function.comp_def] using hc'
  obtain ⟨t, hurls, hint, hperm, _, _⟩ := run_spec net _ resp sched _ hst
  rw [spawn_futures] at hint
  rw [spawn_pendingURLs] at hperm
  refine ⟨rfl, ?_, hperm⟩
  simp only [hurls]
  simpa [spawn] using hint

/-- The index branch as a whole: when both requests for the root are answered by
an index document listing the children `cs`, and during the fan-out every request
for a child `c` is answered by `resp c`, then for every scheduler the call returns
no error, the returned list is an interleaving of what the children send, and the
requests made are the root twice and every listed child once. -/
theorem extractURLs_index_spec (net : Net) (sched : List Nat) (log : List String)
    (url : String) (idx : Body) (cs : List String) (resp : String → Except String Body)
    (hidx : IsIndex idx cs) (h1 : net log url = .ok idx)
    (h2 : net (log ++ [url]) url = .ok idx)
    (hresp : ∀ c ∈ cs, ∀ h, net (log ++ [url] ++ [url] ++ h) c = resp c) :
    (ExtractURLs net sched log url).1.2 = none ∧
    Interleaving (cs.map fun c => childLocs (resp c)) (ExtractURLs net sched log url).1.1 ∧
    (ExtractURLs net sched log url).2.Perm (log ++ [url] ++ [url] ++ cs) := by
  have hc : isSitemapIndexFile idx = true := by
    simp [isSitemapIndexFile, unmarshalSitemapIndex_of_isIndex idx cs hidx]
  exact extractURLs_index_spec_of_second net sched log url idx idx cs resp h1 hc h2 hidx hresp

theorem childLocs_of_fails (r : Except String Body) (h : ChildFails r) : childLocs r = [] := by
  rcases h with ⟨msg, rfl⟩ | ⟨body, err, rfl, hb⟩
  · rfl
  · simp [childLocs, hb]

theorem childLocs_of_isLeaf (body : Body) (locs : List String) (h : IsLeaf body locs) :
    childLocs (.ok body) = locs := by
  simp only [childLocs, unmarshalURLSet_of_isLeaf body locs h]
  exact map_loc_map_mk locs

theorem unmarshalURLSet_error_isParseError (body : Body) (err : Error)
    (h : unmarshalURLSet body = .error err) : err.isParseError = true := by
  cases body with
  | noElement msg =>
    simp [unmarshalURLSet, xmlUnmarshal] at h
    subst h
    rfl
  | truncated root msg =>
    by_cases hr : root = "urlset" <;> simp [unmarshalURLSet, xmlUnmarshal, hr] at h <;>
      (subst h; rfl)
  | document root children =>
    by_cases hr : root = "urlset" <;> simp [unmarshalURLSet, xmlUnmarshal, hr] at h
    subst h
    rfl

theorem flatten_map_filter (cs : List String) (f g : String → List String) (bad : String)
    (hbad : f bad = []) (hgood : ∀ c ∈ cs, c ≠ bad → f c = g c) :
    (cs.map f).flatten = ((cs.filter fun c => decide (c ≠ bad)).map g).flatten := by
  induction cs with
  | nil => rfl
  | cons c cs ih =>
    have ih' := ih fun d hd => hgood d (List.mem_cons_of_mem _ hd)
    by_cases hc : c = bad
    · subst hc
      simp [List.filter, hbad, ih']
    · have := hgood c (List.mem_cons_self _ _) hc
      simp [List.filter, hc, this, ih']

theorem step_log_extends (net : Net) (a : Action) (st : FanOut) :
    ∃ r, (step net a st).log = st.log ++ r := by
  cases a with
  | worker i =>
    cases hw : st.workers[i]? with
    | none => exact ⟨[], by simp [step, hw]⟩
    | some w =>
      cases w with
      | pending u =>
        obtain ⟨w, hstep, _, _⟩ := step_pending net st i u hw
        exact ⟨[u], by rw [hstep]⟩
      | sending locs => cases locs <;> exact ⟨[], by simp [step, hw]⟩
      | done => exact ⟨[], by simp [step, hw]⟩
  | receive =>
    unfold step
    simp only
    split <;> exact ⟨[], by simp⟩
  | close => exact ⟨[], by simp [step]⟩

theorem run_log_extends (net : Net) (sched : List Nat) (st : FanOut) :
    ∃ r, (run net sched st).log = st.log ++ r := by
  induction sched, st using run.induct net with
  | case1 sched st hen =>
    rw [run_of_enabled_nil net sched st hen]
    exact ⟨[], by simp⟩
  | case2 sched st a as hen ih =>
    rw [run_of_enabled_cons net sched st a as hen]
    obtain ⟨r, hr⟩ := ih
    obtain ⟨r', hr'⟩ := step_log_extends net (choose (sched.headD 0) a as) st
    exact ⟨r' ++ r, by rw [hr, hr', List.append_assoc]⟩

/-! ## The claims -/

/-- C1: when the requests for the root URL are answered by a well-formed leaf
document (root element `urlset`) whose `url` entries carry the locations `locs`,
`ExtractURLs` returns no error and exactly the list `locs`: the same strings, the
same number, the same order, duplicates and blanks kept. -/
theorem C1_leaf_locs_in_document_order (net : Net) (sched : List Nat) (log : List String)
    (url : String) (body : Body) (locs : List String) (hbody : IsLeaf body locs)
    (h1 : net log url = .ok body) (h2 : net (log ++ [url]) url = .ok body) :
    (ExtractURLs net sched log url).1 = (locs, none) := by
  have hc : isSitemapIndexFile body = false := by
    simp [isSitemapIndexFile, unmarshalSitemapIndex_of_isLeaf body locs hbody]
  rw [extractURLs_leaf net sched log url body body _ h1 hc h2
    (unmarshalURLSet_of_isLeaf body locs hbody)]
  simp only [map_loc_map_mk]

theorem C1_leaf_locs_in_document_order_witness :
    (ExtractURLs leafWorld [] [] "https://a/sitemap.xml").1
      = ([" https://a/1 ", "https://a/2"], none) :=
  C1_leaf_locs_in_document_order leafWorld [] [] "https://a/sitemap.xml"
    (leafDoc [" https://a/1 ", "https://a/2"]) [" https://a/1 ", "https://a/2"]
    (isLeaf_leafDoc _) rfl rfl

/-- C4: when the request for the root URL fails, `ExtractURLs` returns that
transport error and no URLs, and the root request is the only request made. -/
theorem C4_root_fetch_failure (net : Net) (sched : List Nat) (log : List String)
    (url msg : String) (h : net log url = .error msg) :
    ExtractURLs net sched log url = (([], some (.transport msg)), log ++ [url]) :=
  extractURLs_fetch_error net sched log url msg h

theorem C4_root_fetch_failure_witness :
    ExtractURLs (fun _ _ => .error "connection refused") [3, 1] [] "https://a/sitemap.xml"
      = (([], some (.transport "connection refused")), ["https://a/sitemap.xml"]) :=
  C4_root_fetch_failure (fun _ _ => .error "connection refused") [3, 1] []
    "https://a/sitemap.xml" "connection refused" rfl

/-- C5: when the requests for the root URL are answered by a body that the decoder
rejects both as a `SitemapIndex` and as a `URLSet`, `ExtractURLs` returns a parse
error (the error of the `URLSet` decode) and no URLs. -/
theorem C5_malformed_root (net : Net) (sched : List Nat) (log : List String)
    (url : String) (body : Body) (h1 : net log url = .ok body)
    (h2 : net (log ++ [url]) url = .ok body)
    (hidx : ∃ err, unmarshalSitemapIndex body = .error err)
    (hleaf : ∃ err, unmarshalURLSet body = .error err) :
    ∃ err, err.isParseError = true ∧ unmarshalURLSet body = .error err ∧
      (ExtractURLs net sched log url).1 = ([], some err) := by
  obtain ⟨e1, he1⟩ := hidx
  obtain ⟨e2, he2⟩ := hleaf
  have hc : isSitemapIndexFile body = false := by
    simp [isSitemapIndexFile, he1]
  refine ⟨e2, unmarshalURLSet_error_isParseError body e2 he2, he2, ?_⟩
  rw [extractURLs_leaf_error net sched log url body body e2 h1 hc h2 he2]

theorem C5_malformed_root_witness :
    ∃ err, err.isParseError = true ∧
      unmarshalURLSet (.truncated "urlset" "unexpected EOF") = .error err ∧
      (ExtractURLs truncatedWorld [] [] "u").1 = ([], some err) :=
  C5_malformed_root truncatedWorld [] [] "u" (.truncated "urlset" "unexpected EOF") rfl rfl
    ⟨.unexpectedElement "sitemapindex" "urlset", rfl⟩ ⟨.malformed "unexpected EOF", rfl⟩

/-- C6, as the code behaves: a well-formed document whose root element is `rss` is
not classified as an index, and `ExtractURLs` on it returns an error instead of an
empty result. -/
theorem C6_counterexample :
    isSitemapIndexFile (.document "rss" [Node.element "channel" []]) = false ∧
      ExtractURLs rssWorld [] [] "u"
        = (([], some (.unexpectedElement "urlset" "rss")), ["u", "u"]) := by
  constructor
  · rfl
  · exact extractURLs_leaf_error rssWorld [] [] "u" _ _ _ rfl rfl rfl rfl

/-- C6, amended: decode success alone decides the classification, and a
well-formed document decodes as an index exactly when its root element is named
`sitemapindex`, because of the `XMLName` tag; when the
requests for the root URL are answered by a well-formed document whose root element
is neither `sitemapindex` nor `urlset`, `isSitemapIndexFile` is false and
`ExtractURLs` returns the decoder's error "expected element type <urlset>" and no
URLs. -/
theorem C6_classified_by_root_name (root : String) (children : List Node) :
    (∀ body, isSitemapIndexFile body = true ↔ ∃ sidx, unmarshalSitemapIndex body = .ok sidx) ∧
    (isSitemapIndexFile (.document root children) = true ↔ root = "sitemapindex") ∧
    (root ≠ "sitemapindex" → root ≠ "urlset" →
      ∀ (net : Net) (sched : List Nat) (log : List String) (url : String),
        net log url = .ok (.document root children) →
        net (log ++ [url]) url = .ok (.document root children) →
        ExtractURLs net sched log url
          = (([], some (.unexpectedElement "urlset" root)), log ++ [url] ++ [url])) := by
  refine ⟨?_, ?_, ?_⟩
  · intro body
    unfold isSitemapIndexFile
    cases unmarshalSitemapIndex body <;> simp
  · rw [isSitemapIndexFile_eq_true_iff]
    constructor
    · rintro ⟨cs, h⟩
      cases h
      rfl
    · rintro rfl
      exact ⟨children, rfl⟩
  · intro hni hnu net sched log url h1 h2
    have hc : isSitemapIndexFile (.document root children) = false := by
      simp [isSitemapIndexFile, unmarshalSitemapIndex, xmlUnmarshal, hni]
    apply extractURLs_leaf_error net sched log url _ _ _ h1 hc h2
    simp [unmarshalURLSet, xmlUnmarshal, hnu]

theorem C6_classified_by_root_name_witness :
    ExtractURLs rssWorld [2] ["earlier"] "u"
      = (([], some (.unexpectedElement "urlset" "rss")), ["earlier"] ++ ["u"] ++ ["u"]) :=
  (C6_classified_by_root_name "rss" [Node.element "channel" []]).2.2 (by decide) (by decide)
    rssWorld [2] ["earlier"] "u" rfl rfl

/-- C7: when the requests for the root URL are answered by an index document (root
element `sitemapindex`) with no `sitemap` entry, `ExtractURLs` returns the empty
list and no error, and the only requests made are the two for the root. -/
theorem C7_empty_index (net : Net) (sched : List Nat) (log : List String) (url : String)
    (idx : Body) (hidx : IsIndex idx []) (h1 : net log url = .ok idx)
    (h2 : net (log ++ [url]) url = .ok idx) :
    ExtractURLs net sched log url = (([], none), log ++ [url] ++ [url]) := by
  obtain ⟨herr, hint, hperm⟩ := extractURLs_index_spec net sched log url idx []
    (fun _ => .error "") hidx h1 h2 (fun c hc => by simp at hc)
  have hurls : (ExtractURLs net sched log url).1.1 = [] := by
    have := hint.perm
    simpa using this
  have hlog : (ExtractURLs net sched log url).2 = log ++ [url] ++ [url] := by
    have := hperm
    rw [List.append_nil] at this
    have hd := unmarshalSitemapIndex_of_isIndex idx [] hidx
    have hc : isSitemapIndexFile idx = true := by
      simp [isSitemapIndexFile, hd]
    rw [extractURLs_index net sched log url idx idx _ h1 hc h2 hd] at this ⊢
    obtain ⟨r, hr⟩ := run_log_extends net sched
      (spawn { XMLName := "sitemapindex", Sitemaps := [].map Sitemap.mk }
        (log ++ [url] ++ [url]))
    simp only [spawn] at hr
    simp only [spawn] at this ⊢
    rw [hr] at this ⊢
    have hl := this.length_eq
    simp only [List.length_append] at hl
    have : r = [] := List.length_eq_zero.1 (by omega)
    rw [this, List.append_nil]
  calc ExtractURLs net sched log url
      = (((ExtractURLs net sched log url).1.1, (ExtractURLs net sched log url).1.2),
          (ExtractURLs net sched log url).2) := rfl
    _ = (([], none), log ++ [url] ++ [url]) := by rw [hurls, herr, hlog]

theorem C7_empty_index_witness :
    ExtractURLs (fun _ _ => .ok (indexDoc [])) [5, 0] [] "root"
      = (([], none), [] ++ ["root"] ++ ["root"]) :=
  C7_empty_index (fun _ _ => .ok (indexDoc [])) [5, 0] [] "root" (indexDoc [])
    (isIndex_indexDoc []) rfl rfl

/-- C10: after a successful first request for the root URL, `ExtractURLs` always
makes a second request for it.  The first answer only decides the branch; the
document whose locations are extracted is the second answer, decoded inside
`parseURLSet` (leaf branch) or `parseSitemapIndex` (index branch): in the leaf
branch the result is the `URLs` of the second body, in the index branch the fan-out
is spawned from the `Sitemaps` of the second body, so the result is an interleaving
of what the children listed in the second answer send, whatever the first answer
lists.  When the second request fails, or its body does not decode in the shape
chosen from the first answer, `ExtractURLs` returns that error and no URLs. -/
theorem C10_root_fetched_twice (net : Net) (sched : List Nat) (log : List String)
    (url : String) (b1 : Body) (h1 : net log url = .ok b1) :
    (∃ rest, (ExtractURLs net sched log url).2 = log ++ [url] ++ [url] ++ rest) ∧
    (∀ msg, net (log ++ [url]) url = .error msg →
      ExtractURLs net sched log url
        = (([], some (.transport msg)), log ++ [url] ++ [url])) ∧
    (∀ b2 err, net (log ++ [url]) url = .ok b2 → isSitemapIndexFile b1 = true →
      unmarshalSitemapIndex b2 = .error err →
      ExtractURLs net sched log url = (([], some err), log ++ [url] ++ [url])) ∧
    (∀ b2 err, net (log ++ [url]) url = .ok b2 → isSitemapIndexFile b1 = false →
      unmarshalURLSet b2 = .error err →
      ExtractURLs net sched log url = (([], some err), log ++ [url] ++ [url])) ∧
    (∀ b2 urlset, net (log ++ [url]) url = .ok b2 → isSitemapIndexFile b1 = false →
      unmarshalURLSet b2 = .ok urlset →
      ExtractURLs net sched log url
        = ((urlset.URLs.map URL.Loc, none), log ++ [url] ++ [url])) ∧
    (∀ b2 sidx, net (log ++ [url]) url = .ok b2 → isSitemapIndexFile b1 = true →
      unmarshalSitemapIndex b2 = .ok sidx →
      ExtractURLs net sched log url
        = (((run net sched (spawn sidx (log ++ [url] ++ [url]))).urls, none),
            (run net sched (spawn sidx (log ++ [url] ++ [url]))).log)) ∧
    (∀ b2 cs (resp : String → Except String Body),
      net (log ++ [url]) url = .ok b2 → isSitemapIndexFile b1 = true → IsIndex b2 cs →
      (∀ c ∈ cs, ∀ h, net (log ++ [url] ++ [url] ++ h) c = resp c) →
      (ExtractURLs net sched log url).1.2 = none ∧
      Interleaving (cs.map fun c => childLocs (resp c))
        (ExtractURLs net sched log url).1.1 ∧
      (ExtractURLs net sched log url).2.Perm (log ++ [url] ++ [url] ++ cs)) := by
  refine ⟨?_, ?_, ?_, ?_, ?_, ?_, ?_⟩
  · cases h2 : net (log ++ [url]) url with
    | error msg =>
      rw [extractURLs_second_fetch_error net sched log url b1 msg h1 h2]
      exact ⟨[], by simp⟩
    | ok b2 =>
      cases hc : isSitemapIndexFile b1 with
      | true =>
        cases hd : unmarshalSitemapIndex b2 with
        | error err =>
          rw [extractURLs_index_error net sched log url b1 b2 err h1 hc h2 hd]
          exact ⟨[], by simp⟩
        | ok sidx =>
          rw [extractURLs_index net sched log url b1 b2 sidx h1 hc h2 hd]
          obtain ⟨r, hr⟩ := run_log_extends net sched (spawn sidx (log ++ [url] ++ [url]))
          exact ⟨r, hr⟩
      | false =>
        cases hd : unmarshalURLSet b2 with
        | error err =>
          rw [extractURLs_leaf_error net sched log url b1 b2 err h1 hc h2 hd]
          exact ⟨[], by simp⟩
        | ok urlset =>
          rw [extractURLs_leaf net sched log url b1 b2 urlset h1 hc h2 hd]
          exact ⟨[], by simp⟩
  · intro msg h2
    exact extractURLs_second_fetch_error net sched log url b1 msg h1 h2
  · intro b2 err h2 hc hd
    exact extractURLs_index_error net sched log url b1 b2 err h1 hc h2 hd
  · intro b2 err h2 hc hd
    exact extractURLs_leaf_error net sched log url b1 b2 err h1 hc h2 hd
  · intro b2 urlset h2 hc hd
    exact extractURLs_leaf net sched log url b1 b2 urlset h1 hc h2 hd
  · intro b2 sidx h2 hc hd
    exact extractURLs_index net sched log url b1 b2 sidx h1 hc h2 hd
  · intro b2 cs resp h2 hc hidx hresp
    exact extractURLs_index_spec_of_second net sched log url b1 b2 cs resp h1 hc h2 hidx hresp

theorem C10_root_fetched_twice_witness :
    ExtractURLs flakyWorld [] [] "u"
        = (([], some (.transport "connection reset")), [] ++ ["u"] ++ ["u"]) ∧
      ((ExtractURLs switchWorld [1, 0] [] "root").1.2 = none ∧
        Interleaving [["b1"]] (ExtractURLs switchWorld [1, 0] [] "root").1.1 ∧
        (ExtractURLs switchWorld [1, 0] [] "root").2.Perm
          ([] ++ ["root"] ++ ["root"] ++ ["b"])) :=
  ⟨(C10_root_fetched_twice flakyWorld [] [] "u" (leafDoc ["https://a/1"]) rfl).2.1
      "connection reset" rfl,
    (C10_root_fetched_twice switchWorld [1, 0] [] "root" (indexDoc ["a"]) rfl).2.2.2.2.2.2
      (indexDoc ["b"]) ["b"] (switchWorld ["root", "root"]) rfl rfl (isIndex_indexDoc _)
      (by
        intro c hc h
        simp only [List.mem_singleton] at hc
        subst hc
        rfl)⟩

/-- C2: when the requests for the root URL are answered by a well-formed index
document listing the children `cs`, and every request for a child `c` is answered
by a well-formed leaf document with the locations `locs c`, then for every
scheduler `ExtractURLs` returns no error and a list that is a permutation of the
concatenation of the children's locations (duplicates kept); its length is the sum
of the children's numbers of entries. -/
theorem C2_index_multiset_union (net : Net) (sched : List Nat) (log : List String)
    (url : String) (idx : Body) (cs : List String) (docs : String → Body)
    (locs : String → List String) (hidx : IsIndex idx cs) (h1 : net log url = .ok idx)
    (h2 : net (log ++ [url]) url = .ok idx)
    (hchild : ∀ c ∈ cs, IsLeaf (docs c) (locs c) ∧
      ∀ h, net (log ++ [url] ++ [url] ++ h) c = .ok (docs c)) :
    (ExtractURLs net sched log url).1.2 = none ∧
    (ExtractURLs net sched log url).1.1.Perm (cs.map locs).flatten ∧
    (ExtractURLs net sched log url).1.1.length = (cs.map fun c => (locs c).length).sum := by
  obtain ⟨herr, hint, _⟩ := extractURLs_index_spec net sched log url idx cs
    (fun c => .ok (docs c)) hidx h1 h2 (fun c hc h => (hchild c hc).2 h)
  have hmap : (cs.map fun c => childLocs (.ok (docs c))) = cs.map locs :=
    List.map_congr_left fun c hc => childLocs_of_isLeaf (docs c) (locs c) (hchild c hc).1
  rw [hmap] at hint
  refine ⟨herr, hint.perm, ?_⟩
  rw [hint.perm.length_eq, List.length_flatten, List.map_map]
  rfl

theorem C2_index_multiset_union_witness :
    (ExtractURLs indexWorld [2, 0, 1, 1, 3] [] "root").1.2 = none ∧
    (ExtractURLs indexWorld [2, 0, 1, 1, 3] [] "root").1.1.Perm
      ["a1", "a2", "b1", "a1", "a2"] ∧
    (ExtractURLs indexWorld [2, 0, 1, 1, 3] [] "root").1.1.length = 5 :=
  C2_index_multiset_union indexWorld [2, 0, 1, 1, 3] [] "root" (indexDoc ["a", "b", "a"])
    ["a", "b", "a"] (fun c => if c = "a" then leafDoc ["a1", "a2"] else leafDoc ["b1"])
    (fun c => if c = "a" then ["a1", "a2"] else ["b1"]) (isIndex_indexDoc _) rfl rfl
    (by
      intro c hc
      simp only [List.mem_cons, List.mem_singleton, List.not_mem_nil, or_false] at hc
      rcases hc with rfl | rfl | rfl
      · exact ⟨isLeaf_leafDoc _, fun _ => rfl⟩
      · exact ⟨isLeaf_leafDoc _, fun _ => rfl⟩
      · exact ⟨isLeaf_leafDoc _, fun _ => rfl⟩)

/-- C3: when the requests for the root URL are answered by a well-formed index
document, `ExtractURLs` returns no error whatever happens to the children.  If the
requests for one child `bad` fail (transport failure, or a body that does not
decode as a `URLSet`) and every other child is a well-formed leaf, the result is a
permutation of the concatenation of the other children's locations: every location
of every successful child, and nothing from the failed one. -/
theorem C3_child_failure_isolated (net : Net) (sched : List Nat) (log : List String)
    (url : String) (idx : Body) (cs : List String) (hidx : IsIndex idx cs)
    (h1 : net log url = .ok idx) (h2 : net (log ++ [url]) url = .ok idx) :
    (ExtractURLs net sched log url).1.2 = none ∧
    ∀ (bad : String) (r : Except String Body) (docs : String → Body)
      (locs : String → List String),
      ChildFails r → (∀ h, net (log ++ [url] ++ [url] ++ h) bad = r) →
      (∀ c ∈ cs, c ≠ bad → IsLeaf (docs c) (locs c) ∧
        ∀ h, net (log ++ [url] ++ [url] ++ h) c = .ok (docs c)) →
      (ExtractURLs net sched log url).1.1.Perm
        ((cs.filter fun c => decide (c ≠ bad)).map locs).flatten := by
  have hd := unmarshalSitemapIndex_of_isIndex idx cs hidx
  have hc : isSitemapIndexFile idx = true := by
    simp [isSitemapIndexFile, hd]
  refine ⟨?_, ?_⟩
  · rw [extractURLs_index net sched log url idx idx _ h1 hc h2 hd]
  · intro bad r docs locs hfail hbad hgood
    obtain ⟨_, hint, _⟩ := extractURLs_index_spec net sched log url idx cs
      (fun c => if c = bad then r else .ok (docs c)) hidx h1 h2 (by
        intro c hc' h
        by_cases hcb : c = bad
        · subst hcb
          simp only [if_true]
          exact hbad h
        · simp only [hcb, if_false]
          exact (hgood c hc' hcb).2 h)
    have hflat := flatten_map_filter cs
      (fun c => childLocs (if c = bad then r else .ok (docs c))) locs bad
      (by simp [childLocs_of_fails r hfail])
      (by
        intro c hc' hcb
        simp only [hcb, if_false]
        exact childLocs_of_isLeaf (docs c) (locs c) (hgood c hc' hcb).1)
    rw [← hflat]
    exact hint.perm

theorem C3_child_failure_isolated_witness :
    (ExtractURLs brokenChildWorld [1, 1, 0, 2] [] "root").1.1.Perm
      ((["a", "x", "b"].filter fun c => decide (c ≠ "x")).map
        (fun c => if c = "a" then ["a1", "a2"] else ["b1"])).flatten :=
  (C3_child_failure_isolated brokenChildWorld [1, 1, 0, 2] [] "root"
    (indexDoc ["a", "x", "b"]) ["a", "x", "b"] (isIndex_indexDoc _) rfl rfl).2
    "x" (.error "connection refused")
    (fun c => if c = "a" then leafDoc ["a1", "a2"] else leafDoc ["b1"])
    (fun c => if c = "a" then ["a1", "a2"] else ["b1"])
    (Or.inl ⟨_, rfl⟩) (fun _ => rfl)
    (by
      intro c hc hne
      simp only [List.mem_cons, List.mem_singleton, List.not_mem_nil, or_false] at hc
      rcases hc with rfl | rfl | rfl
      · exact ⟨isLeaf_leafDoc _, fun _ => rfl⟩
      · exact absurd rfl hne
      · exact ⟨isLeaf_leafDoc _, fun _ => rfl⟩)

/-- C8: when the requests for the root URL are answered by a well-formed index
document listing the children `cs`, and every request for a child `c` is answered
by `resp c`, then for every scheduler the list returned by `ExtractURLs` is an
interleaving of the lists the children send; so for each listed child the decoded
locations of its document occur in the result as a subsequence, in the order of the
document, and for a child that is a well-formed leaf these are its `url` entries in
document order. -/
theorem C8_interleaving_of_children (net : Net) (sched : List Nat) (log : List String)
    (url : String) (idx : Body) (cs : List String) (resp : String → Except String Body)
    (hidx : IsIndex idx cs) (h1 : net log url = .ok idx)
    (h2 : net (log ++ [url]) url = .ok idx)
    (hresp : ∀ c ∈ cs, ∀ h, net (log ++ [url] ++ [url] ++ h) c = resp c) :
    Interleaving (cs.map fun c => childLocs (resp c)) (ExtractURLs net sched log url).1.1 ∧
    (∀ (i : Nat) (c : String), cs[i]? = some c →
      (childLocs (resp c)).Sublist (ExtractURLs net sched log url).1.1) ∧
    (∀ c ∈ cs, ∀ body locs, resp c = .ok body → IsLeaf body locs →
      locs.Sublist (ExtractURLs net sched log url).1.1) := by
  obtain ⟨_, hint, _⟩ := extractURLs_index_spec net sched log url idx cs resp hidx h1 h2 hresp
  have hsub : ∀ (i : Nat) (c : String), cs[i]? = some c →
      (childLocs (resp c)).Sublist (ExtractURLs net sched log url).1.1 := by
    intro i c hi
    apply hint.sublist i
    rw [List.getElem?_map, hi]
    rfl
  refine ⟨hint, hsub, ?_⟩
  intro c hc body locs hr hleaf
  obtain ⟨i, hi⟩ := List.mem_iff_getElem?.1 hc
  have := hsub i c hi
  rw [hr, childLocs_of_isLeaf body locs hleaf] at this
  exact this

theorem C8_interleaving_of_children_witness :
    Interleaving
      (["a", "b", "a"].map fun c => childLocs (indexWorld [] c))
      (ExtractURLs indexWorld [4, 4, 0, 1] [] "root").1.1 :=
  (C8_interleaving_of_children indexWorld [4, 4, 0, 1] [] "root" (indexDoc ["a", "b", "a"])
    ["a", "b", "a"] (indexWorld []) (isIndex_indexDoc _) rfl rfl (fun _ _ _ => rfl)).1

/-- C9: children are parsed as leaf documents only.  When the requests for the root
URL are answered by a well-formed index document listing the children `cs`, and a
listed child `nested` is answered by a well-formed document whose root element is
`sitemapindex`, then `parseURLSet` rejects that child, `ExtractURLs` returns no
error, the result is a permutation of what the other children send, and the
requests made are the root twice and each listed child once: nothing that only the
nested index lists is requested. -/
theorem C9_children_not_recursed (net : Net) (sched : List Nat) (log : List String)
    (url : String) (idx : Body) (cs : List String) (resp : String → Except String Body)
    (nested : String) (grand : List Node) (hidx : IsIndex idx cs)
    (h1 : net log url = .ok idx) (h2 : net (log ++ [url]) url = .ok idx)
    (hresp : ∀ c ∈ cs, ∀ h, net (log ++ [url] ++ [url] ++ h) c = resp c)
    (hn : nested ∈ cs) (hr : resp nested = .ok (.document "sitemapindex" grand)) :
    (∀ h, (parseURLSet net (log ++ [url] ++ [url] ++ h) nested).1
      = .error (.unexpectedElement "urlset" "sitemapindex")) ∧
    (ExtractURLs net sched log url).1.2 = none ∧
    (ExtractURLs net sched log url).1.1.Perm
      ((cs.filter fun c => decide (c ≠ nested)).map fun c => childLocs (resp c)).flatten ∧
    (ExtractURLs net sched log url).2.Perm (log ++ [url] ++ [url] ++ cs) := by
  obtain ⟨herr, hint, hlog⟩ :=
    extractURLs_index_spec net sched log url idx cs resp hidx h1 h2 hresp
  have hnil : childLocs (resp nested) = [] := by
    rw [hr]
    rfl
  refine ⟨?_, herr, ?_, hlog⟩
  · intro h
    simp only [parseURLSet, fetchSitemapContent, hresp nested hn h, hr]
    rfl
  · rw [← flatten_map_filter cs (fun c => childLocs (resp c)) (fun c => childLocs (resp c))
      nested hnil (fun _ _ _ => rfl)]
    exact hint.perm

theorem C9_children_not_recursed_witness :
    (∀ h, (parseURLSet nestedWorld ([] ++ ["root"] ++ ["root"] ++ h) "nested").1
      = .error (.unexpectedElement "urlset" "sitemapindex")) ∧
    (ExtractURLs nestedWorld [1] [] "root").1.2 = none ∧
    (ExtractURLs nestedWorld [1] [] "root").1.1.Perm
      ((["a", "nested"].filter fun c => decide (c ≠ "nested")).map
        fun c => childLocs (nestedWorld [] c)).flatten ∧
    (ExtractURLs nestedWorld [1] [] "root").2.Perm
      ([] ++ ["root"] ++ ["root"] ++ ["a", "nested"]) :=
  C9_children_not_recursed nestedWorld [1] [] "root" (indexDoc ["a", "nested"])
    ["a", "nested"] (nestedWorld []) "nested"
    [Node.element "sitemap" [Node.element "loc" [Node.charData "deep"]]]
    (isIndex_indexDoc _) rfl rfl (fun _ _ _ => rfl) (by simp) rfl

end SitemapParser
